import Mathlib

/-!
Verification development for the index-bloom library: a probabilistic
full-text index built from one Bloom filter per document.

The embedding translates the Rust sources of the crate:
  - src/bloom_filter.rs : BloomFilter (new / insert / contains / hash_word)
  - src/tokens.rs       : Tokens (whitespace splitting, transliteration,
                          punctuation stripping, lowercasing)
  - src/index.rs        : Index (new / restore / ingest / search /
                          aggregate_tokens)
  - src/errors.rs       : Error (HashWord of a ParseIntError)

Modelling conventions:
  - Rust machine integers (u8, u32, usize) become Nat, with explicit
    `% 2 ^ 64` where u64 wrap-around matters (inside Blake2b).
  - Rust byte strings become List Nat of UTF-8 byte values; Lean String
    carries the same character data as Rust str.
  - The external `blake2` crate (VarBlake2b with a 4-byte digest) is
    implemented from RFC 7693 as a computable function; it was validated
    against the RFC appendix vector for BLAKE2b-512("abc") and against the
    crate tests' bitfields for `new(2, 0.1)` with keys "hello"/"world".
  - f32 arithmetic in BloomFilter::new (logarithms, division, ceil) is
    modelled over ℝ; the resulting sizes are therefore noncomputable and
    are evaluated on concrete inputs through proved equations.
  - Fallible Rust code (Result) becomes Except; `panic!` becomes an
    explicit outcome constructor (ingest) or Option.none (BloomFilter::new).
  - HashMap<String, BloomFilter> becomes an association list whose insert
    replaces the binding of an existing key in place; HashSet<String>
    becomes a first-occurrence-ordered deduplicated list.
-/

set_option maxRecDepth 20000

/-! ## Bytes, hex rendering and hex parsing -/

/-- UTF-8 encoding of one character, as Rust `String`/`str` store text. -/
def utf8Char (c : Char) : List Nat :=
  let n := c.toNat
  if n < 0x80 then [n]
  else if n < 0x800 then [0xC0 ||| (n / 64), 0x80 ||| (n % 64)]
  else if n < 0x10000 then
    [0xE0 ||| (n / 4096), 0x80 ||| (n / 64 % 64), 0x80 ||| (n % 64)]
  else
    [0xF0 ||| (n / 262144), 0x80 ||| (n / 4096 % 64), 0x80 ||| (n / 64 % 64), 0x80 ||| (n % 64)]

/-- The bytes of a Rust string (UTF-8). -/
def strBytes (s : String) : List Nat :=
  (s.data.map utf8Char).flatten

def hexDigitChar (n : Nat) : Char :=
  ("0123456789abcdef".data).getD n '0'

/-- Rust `format!("\x7b:x\x7d", d)` for one byte `d : u8`: lowercase hex,
no zero padding, so values below 16 render as a single digit. -/
def byteHexChars (b : Nat) : List Char :=
  if b < 16 then [hexDigitChar b] else [hexDigitChar (b / 16 % 16), hexDigitChar (b % 16)]

/-- The hex rendering of a digest: per-byte hex strings joined with no
separator (`.map(|d| format!(..)).collect::<Vec<String>>().join("")`),
modelled at the character-list level. -/
def hexChars (bytes : List Nat) : List Char :=
  (bytes.map byteHexChars).flatten

/-- Value of one hex digit, as in Rust `char::to_digit(16)`:
0-9, a-f and A-F; other characters have no value. -/
def hexVal (c : Char) : Nat :=
  if 48 ≤ c.toNat ∧ c.toNat ≤ 57 then c.toNat - 48
  else if 97 ≤ c.toNat ∧ c.toNat ≤ 102 then c.toNat - 87
  else if 65 ≤ c.toNat ∧ c.toNat ≤ 70 then c.toNat - 55
  else 0

def isHexDigit (c : Char) : Bool :=
  (48 ≤ c.toNat ∧ c.toNat ≤ 57) ∨ (97 ≤ c.toNat ∧ c.toNat ≤ 102) ∨
    (65 ≤ c.toNat ∧ c.toNat ≤ 70)

/-- The error kinds of Rust `std::num::ParseIntError` reachable from
`usize::from_str_radix` on an unsigned 64-bit target. -/
inductive ParseIntErr where
  | empty
  | invalidDigit
  | posOverflow
deriving DecidableEq, Repr

def hexFold (l : List Char) : Nat :=
  l.foldl (fun acc c => 16 * acc + hexVal c) 0

/-- Rust `usize::from_str_radix(s, 16)` (64-bit usize), restricted to inputs
without a leading sign, which is all this crate ever feeds it: the hex
rendering of a digest never starts with '+' or '-'. -/
def parseHexCore (l : List Char) : Except ParseIntErr Nat :=
  if l = [] then .error .empty
  else if l.all isHexDigit then
    if hexFold l < 2 ^ 64 then .ok (hexFold l) else .error .posOverflow
  else .error .invalidDigit

instance instDecEqExcept {ε α : Type} [DecidableEq ε] [DecidableEq α] :
    DecidableEq (Except ε α)
  | .error e1, .error e2 =>
    if h : e1 = e2 then .isTrue (congrArg Except.error h)
    else .isFalse (fun hc => h (Except.error.inj hc))
  | .error _, .ok _ => .isFalse (fun hc => Except.noConfusion hc)
  | .ok _, .error _ => .isFalse (fun hc => Except.noConfusion hc)
  | .ok a1, .ok a2 =>
    if h : a1 = a2 then .isTrue (congrArg Except.ok h)
    else .isFalse (fun hc => h (Except.ok.inj hc))

/-! ## Blake2b (RFC 7693), as used by the blake2 crate's VarBlake2b -/

def U64 : Nat := 2 ^ 64

def blakeIV : List Nat :=
  [0x6a09e667f3bcc908, 0xbb67ae8584caa73b, 0x3c6ef372fe94f82b, 0xa54ff53a5f1d36f1,
   0x510e527fade682d1, 0x9b05688c2b3e6c1f, 0x1f83d9abfb41bd6b, 0x5be0cd19137e2179]

def blakeSigma : Nat → List Nat
  | 0 => [0, 1, 2, 3, 4, 5, 6, 7, 8, 9, 10, 11, 12, 13, 14, 15]
  | 1 => [14, 10, 4, 8, 9, 15, 13, 6, 1, 12, 0, 2, 11, 7, 5, 3]
  | 2 => [11, 8, 12, 0, 5, 2, 15, 13, 10, 14, 3, 6, 7, 1, 9, 4]
  | 3 => [7, 9, 3, 1, 13, 12, 11, 14, 2, 6, 5, 10, 4, 0, 15, 8]
  | 4 => [9, 0, 5, 7, 2, 4, 10, 15, 14, 1, 11, 12, 6, 8, 3, 13]
  | 5 => [2, 12, 6, 10, 0, 11, 8, 3, 4, 13, 7, 5, 15, 14, 1, 9]
  | 6 => [12, 5, 1, 15, 14, 13, 4, 10, 0, 7, 6, 3, 9, 2, 8, 11]
  | 7 => [13, 11, 7, 14, 12, 1, 3, 9, 5, 0, 15, 4, 8, 6, 2, 10]
  | 8 => [6, 15, 14, 9, 11, 3, 0, 8, 12, 2, 13, 7, 1, 4, 10, 5]
  | _ => [10, 2, 8, 4, 7, 6, 1, 5, 15, 11, 9, 14, 3, 12, 13, 0]

def rotr64 (x n : Nat) : Nat :=
  ((x >>> n) ||| (x <<< (64 - n))) % U64

def vget (v : List Nat) (i : Nat) : Nat := v.getD i 0

/-- The G mixing function of Blake2b. -/
def gmix (v : List Nat) (a b c d x y : Nat) : List Nat :=
  let va := (vget v a + vget v b + x) % U64
  let vd := rotr64 ((vget v d) ^^^ va) 32
  let vc := (vget v c + vd) % U64
  let vb := rotr64 ((vget v b) ^^^ vc) 24
  let va2 := (va + vb + y) % U64
  let vd2 := rotr64 (vd ^^^ va2) 16
  let vc2 := (vc + vd2) % U64
  let vb2 := rotr64 (vb ^^^ vc2) 63
  (((v.set a va2).set b vb2).set c vc2).set d vd2

def blakeRound (m : List Nat) (v : List Nat) (r : Nat) : List Nat :=
  let s := blakeSigma (r % 10)
  let mi := fun i => m.getD (s.getD i 0) 0
  let v := gmix v 0 4 8 12 (mi 0) (mi 1)
  let v := gmix v 1 5 9 13 (mi 2) (mi 3)
  let v := gmix v 2 6 10 14 (mi 4) (mi 5)
  let v := gmix v 3 7 11 15 (mi 6) (mi 7)
  let v := gmix v 0 5 10 15 (mi 8) (mi 9)
  let v := gmix v 1 6 11 12 (mi 10) (mi 11)
  let v := gmix v 2 7 8 13 (mi 12) (mi 13)
  gmix v 3 4 9 14 (mi 14) (mi 15)

/-- Little-endian 64-bit word from up to 8 bytes. -/
def leWord (bytes : List Nat) : Nat :=
  bytes.foldr (fun b acc => b + 256 * acc) 0

def msgWords (block : List Nat) : List Nat :=
  (List.range 16).map (fun j => leWord ((block.drop (8 * j)).take 8))

/-- The Blake2b compression function F. -/
def blakeCompress (h : List Nat) (m : List Nat) (t : Nat) (final : Bool) : List Nat :=
  let v := h ++ blakeIV
  let v := v.set 12 ((vget v 12) ^^^ (t % U64))
  let v := v.set 13 ((vget v 13) ^^^ (t / U64 % U64))
  let v := if final then v.set 14 ((vget v 14) ^^^ (U64 - 1)) else v
  let v := (List.range 12).foldl (blakeRound m) v
  List.ofFn (fun i : Fin 8 => ((h.getD i.val 0) ^^^ (vget v i.val)) ^^^ (vget v (i.val + 8)))

def padBlock (b : List Nat) : List Nat :=
  b ++ List.replicate (128 - b.length) 0

/-- Process the message 128 bytes at a time; the fuel is an upper bound on
the number of blocks and is instantiated with the message length. -/
def blakeGo (fuel : Nat) (h : List Nat) (consumed : Nat) (rest : List Nat) : List Nat :=
  if rest.length ≤ 128 then
    blakeCompress h (msgWords (padBlock rest)) (consumed + rest.length) true
  else
    match fuel with
    | 0 => h
    | fuel + 1 =>
      blakeGo fuel (blakeCompress h (msgWords (rest.take 128)) (consumed + 128) false)
        (consumed + 128) (rest.drop 128)

def wordLEBytes (w : Nat) : List Nat :=
  (List.range 8).map (fun i => w / 256 ^ i % 256)

/-- Unkeyed Blake2b with digest length `nn` bytes; `VarBlake2b::new(nn)`
of the blake2 crate followed by `update`/`finalize_variable`. -/
def blake2b (nn : Nat) (msg : List Nat) : List Nat :=
  let h0 := blakeIV.set 0 ((vget blakeIV 0) ^^^ (0x01010000 ^^^ nn))
  let hFinal := blakeGo msg.length h0 0 msg
  ((hFinal.map wordLEBytes).flatten).take nn

/-! ## Errors (src/errors.rs) -/

/-- `Error` of src/errors.rs: the one variant wraps the ParseIntError of the
digest-to-integer step. -/
inductive RError where
  | hashWord (e : ParseIntErr)
deriving DecidableEq, Repr

/-! ## BloomFilter (src/bloom_filter.rs) -/

structure BloomFilter where
  key_size : Nat
  bitfield : List Nat
  bitfield_size : Nat
deriving DecidableEq, Repr

/-- The f32 sizing expression of `BloomFilter::new` over ℝ, before the cast
to usize: `((capacity as f32 * err_rate.ln()) / factor).ceil()` with
`factor = (1.0 / 2.0f32.powf(2.0f32.ln())).ln()`. -/
noncomputable def msizeInt (capacity : Nat) (err_rate : ℝ) : ℤ :=
  ⌈((capacity : ℝ) * Real.log err_rate) / Real.log (1 / (2 : ℝ) ^ Real.log 2)⌉

noncomputable def msize (capacity : Nat) (err_rate : ℝ) : Nat :=
  (msizeInt capacity err_rate).toNat

/-- `key_size = ((bitfield_size / capacity_float) * 2.0f32.ln()).ceil() as u32`,
computed from the still-floating-point `bitfield_size`; the `as u32` cast of
a negative float saturates at 0, which Int.toNat reproduces. -/
noncomputable def ksize (capacity : Nat) (err_rate : ℝ) : Nat :=
  ⌈((msizeInt capacity err_rate : ℝ) / (capacity : ℝ)) * Real.log 2⌉.toNat

/-- `BloomFilter::new`: `none` models the `panic!` on capacity 0; the byte
vector holds `ceil(bitfield_size / 8)` zero bytes. -/
noncomputable def BloomFilter.new (capacity : Nat) (err_rate : ℝ) : Option BloomFilter :=
  if capacity = 0 then none
  else some
    { key_size := ksize capacity err_rate
      bitfield := List.replicate ((msize capacity err_rate + 7) / 8) 0
      bitfield_size := msize capacity err_rate }

/-- The loop body of `hash_word`: on probe `cnt` countdown, push `key` onto
the accumulated buffer, join it with no separator, hash, hex-render, parse
and reduce modulo the bit-field length. A parse failure aborts with
`Error::HashWord`. The digest primitive `d` is the external collaborator;
the crate instantiates it with `blake2b 4`. -/
def hashWordGo (d : List Nat → List Nat) (key : String) (m : Nat) :
    Nat → List String → Except RError (List Nat)
  | 0, _ => .ok []
  | cnt + 1, keys_buffer =>
    let keys_buffer2 := keys_buffer ++ [key]
    let k := String.join keys_buffer2
    match parseHexCore (hexChars (d (strBytes k))) with
    | .error e => .error (.hashWord e)
    | .ok num =>
      match hashWordGo d key m cnt keys_buffer2 with
      | .error e => .error e
      | .ok rest => .ok (num % m :: rest)

def BloomFilter.hashWordD (d : List Nat → List Nat) (f : BloomFilter) (key : String) :
    Except RError (List Nat) :=
  hashWordGo d key f.bitfield_size f.key_size []

/-- `BloomFilter::hash_word` with the crate's digest. -/
def BloomFilter.hash_word (f : BloomFilter) (key : String) : Except RError (List Nat) :=
  f.hashWordD (blake2b 4) key

/-- One step of `insert`'s loop:
`self.bitfield[position / 8] |= 2u8.pow(position % 8)`. -/
def setBit (bf : List Nat) (position : Nat) : List Nat :=
  bf.set (position / 8) (bf.getD (position / 8) 0 ||| 2 ^ (position % 8))

def BloomFilter.insertD (d : List Nat → List Nat) (f : BloomFilter) (key : String) :
    Except RError BloomFilter :=
  match f.hashWordD d key with
  | .error e => .error e
  | .ok positions => .ok { f with bitfield := positions.foldl setBit f.bitfield }

/-- `BloomFilter::insert` with the crate's digest. -/
def BloomFilter.insert (f : BloomFilter) (key : String) : Except RError BloomFilter :=
  f.insertD (blake2b 4) key

/-- One containment probe:
`self.bitfield[position / 8] & mask == mask` with `mask = 2u8.pow(position % 8)`. -/
def testBitfield (bf : List Nat) (position : Nat) : Bool :=
  let mask := 2 ^ (position % 8)
  (bf.getD (position / 8) 0) &&& mask == mask

def BloomFilter.containsD (d : List Nat → List Nat) (f : BloomFilter) (key : String) :
    Except RError Bool :=
  match f.hashWordD d key with
  | .error e => .error e
  | .ok positions => .ok (positions.all (testBitfield f.bitfield))

/-- `BloomFilter::contains` with the crate's digest. -/
def BloomFilter.contains (f : BloomFilter) (key : String) : Except RError Bool :=
  f.containsD (blake2b 4) key

/-- Well-formedness every filter produced by `BloomFilter::new` enjoys: a
positive bit-field length and a byte vector of exactly `ceil(m / 8)` bytes.
Inside it the Rust indexing and `% bitfield_size` never panic. -/
def BloomFilter.wf (f : BloomFilter) : Prop :=
  0 < f.bitfield_size ∧ f.bitfield.length = (f.bitfield_size + 7) / 8

instance (f : BloomFilter) : Decidable f.wf := by
  unfold BloomFilter.wf; infer_instance

/-- The value of the hex-rendered 4-byte digest of a message. -/
def digestVal (msg : List Nat) : Nat :=
  hexFold (hexChars (blake2b 4 msg))

/-- Position of probe `reps - 1`: hash `key` concatenated with itself `reps`
times, render in hex, parse, reduce modulo `m`. -/
def posOf (key : String) (reps m : Nat) : Nat :=
  digestVal (strBytes (String.join (List.replicate reps key))) % m

/-- Closed form of the position list `hash_word` returns. -/
def hashPositions (f : BloomFilter) (key : String) : List Nat :=
  (List.range f.key_size).map (fun i => posOf key (i + 1) f.bitfield_size)

/-- `contains` as a Bool, with `false` for the (unreachable) error case. -/
def BloomFilter.containsB (f : BloomFilter) (key : String) : Bool :=
  match f.contains key with
  | .ok b => b
  | .error _ => false

/-! ## Tokens (src/tokens.rs) -/

/-- Rust `char::is_whitespace`: the Unicode White_Space code points. -/
def rustWhitespace (c : Char) : Bool :=
  [9, 10, 11, 12, 13, 32, 133, 160, 5760, 8192, 8193, 8194, 8195, 8196, 8197,
   8198, 8199, 8200, 8201, 8202, 8232, 8233, 8239, 8287, 12288].contains c.toNat

/-- `str::split_whitespace`: maximal runs of non-whitespace characters. -/
def splitWSChars : List Char → List Char → List (List Char)
  | [], acc => if acc = [] then [] else [acc.reverse]
  | c :: cs, acc =>
    if rustWhitespace c then
      if acc = [] then splitWSChars cs [] else acc.reverse :: splitWSChars cs []
    else splitWSChars cs (c :: acc)

def rustSplitWhitespace (s : String) : List String :=
  (splitWSChars s.data []).map String.mk

/-- Modelled from the spec: the ASCII transliteration of the external
unidecode crate ("fold accented/diacritic letters to nearest ASCII
letters"), an external collaborator of the tokenizer. ASCII characters map
to themselves; the accented letters exercised by this repository fold to
their base letter; unmapped characters fold to the empty string as
unidecode does. -/
def unidecodeChar (c : Char) : String :=
  if c.toNat < 128 then String.mk [c]
  else if c = 'é' then "e"
  else if c = 'è' then "e"
  else if c = 'ê' then "e"
  else if c = 'à' then "a"
  else if c = 'ï' then "i"
  else if c = 'ù' then "u"
  else if c = 'ç' then "c"
  else ""

def unidecodeStr (w : String) : String :=
  String.join (w.data.map unidecodeChar)

/-- Rust `str::replace(pat, "")` with a one-character pattern: every
occurrence of the character is removed. -/
def replaceChar (s : String) (c : Char) : String :=
  String.mk (s.data.filter (fun a => a ≠ c))

/-- `Tokens::clean_word`: the 22 chained `.replace(c, "")` calls. -/
def Tokens.clean_word (word : String) : String :=
  let w := replaceChar word '.'
  let w := replaceChar w '!'
  let w := replaceChar w '?'
  let w := replaceChar w ','
  let w := replaceChar w ';'
  let w := replaceChar w ':'
  let w := replaceChar w '/'
  let w := replaceChar w '&'
  let w := replaceChar w '#'
  let w := replaceChar w '*'
  let w := replaceChar w '_'
  let w := replaceChar w '('
  let w := replaceChar w ')'
  let w := replaceChar w '['
  let w := replaceChar w ']'
  let w := replaceChar w (Char.ofNat 123)
  let w := replaceChar w (Char.ofNat 125)
  let w := replaceChar w '<'
  let w := replaceChar w '>'
  let w := replaceChar w (Char.ofNat 39)
  let w := replaceChar w (Char.ofNat 96)
  replaceChar w (Char.ofNat 34)

/-- Rust `str::to_lowercase`: Unicode-aware in general, but its input here
(the output of the ASCII transliteration) is ASCII, where it lowercases
exactly the letters A-Z as `Char.toLower` does. -/
def toLowerStr (s : String) : String :=
  String.mk (s.data.map Char.toLower)

/-- `Tokens::next` driven to exhaustion: per word transliterate, strip
punctuation, lowercase, and skip empty results. -/
def Tokens.nextAll : List String → List String
  | [] => []
  | word :: ws =>
    let ascii_word := unidecodeStr word
    let token := toLowerStr (Tokens.clean_word ascii_word)
    if token = "" then Tokens.nextAll ws else token :: Tokens.nextAll ws

/-- The full token sequence `Tokens::new(s)` yields. -/
def tokensList (s : String) : List String :=
  Tokens.nextAll (rustSplitWhitespace s)

/-- The per-word normalization pipeline of the tokenizer. -/
def Tokens.normalize (word : String) : String :=
  toLowerStr (Tokens.clean_word (unidecodeStr word))

/-! ## Index (src/index.rs) -/

structure Index where
  error_rate : ℝ
  bloom_filters : List (String × BloomFilter)

/-- `Index::new`. -/
def Index.new (error_rate : ℝ) : Index :=
  { error_rate := error_rate, bloom_filters := [] }

/-- `HashMap::insert`: replace the binding of an existing key, otherwise add
a new one. -/
def insertAList (l : List (String × BloomFilter)) (name : String) (f : BloomFilter) :
    List (String × BloomFilter) :=
  match l with
  | [] => [(name, f)]
  | e :: es => if e.1 = name then (name, f) :: es else e :: insertAList es name f

/-- Rust `str::lines`: pieces terminated by a newline, with one carriage
return stripped from the end of a newline-terminated piece; a final piece
without a newline is kept as is, a trailing empty piece is not produced. -/
def stripCR (l : List Char) : List Char :=
  if l.getLastD '\n' = '\r' then l.dropLast else l

def linesChars : List Char → List Char → List String
  | [], acc => if acc = [] then [] else [String.mk (stripCR acc.reverse)]
  | c :: cs, acc =>
    if c = '\n' then String.mk (stripCR acc.reverse) :: linesChars cs []
    else linesChars cs (c :: acc)

def rustLines (s : String) : List String :=
  linesChars s.data []

/-- `Index::aggregate_tokens`: tokens of every line collected into a
HashSet<String>, modelled as a deduplicated list in first-occurrence order
(the set's iteration order is irrelevant to every property proved here:
the filter bits are a commutative union and only the cardinality sizes the
filter). -/
def Index.aggregate_tokens (content : String) : List String :=
  (rustLines content).foldl
    (fun acc line =>
      (tokensList line).foldl (fun a t => if t ∈ a then a else a ++ [t]) acc)
    []

/-- The outcome of one `ingest` call on the Rust side: a `panic!` escape, an
`Err` return, or an `Ok` return. -/
inductive IngestOutcome where
  | panicked
  | errored (e : RError)
  | ok
deriving DecidableEq, Repr

/-- `for token in tokens_agg { filter.insert(&token)?; }` -/
def insertAllD (d : List Nat → List Nat) (f : BloomFilter) :
    List String → Except RError BloomFilter
  | [] => .ok f
  | t :: ts =>
    match f.insertD d t with
    | .error e => .error e
    | .ok f2 => insertAllD d f2 ts

/-- `Index::ingest`, parametric in the digest primitive; the second
component is the state of `self` when the call returns or panics. The
filter is built off to the side and stored only after every insert
succeeded, so the mapping is untouched on the error and panic paths. -/
noncomputable def Index.ingestD (d : List Nat → List Nat) (idx : Index)
    (name content : String) : IngestOutcome × Index :=
  let tokens_agg := Index.aggregate_tokens content
  let capacity := tokens_agg.length
  match BloomFilter.new capacity idx.error_rate with
  | none => (.panicked, idx)
  | some filter =>
    match insertAllD d filter tokens_agg with
    | .error e => (.errored e, idx)
    | .ok filter =>
      (.ok, { error_rate := idx.error_rate
              bloom_filters := insertAList idx.bloom_filters name filter })

/-- `Index::ingest` with the crate's digest. -/
noncomputable def Index.ingest (idx : Index) (name content : String) :
    IngestOutcome × Index :=
  idx.ingestD (blake2b 4) name content

/-- The token loop of `search` for one filter: all query tokens contained,
with an early break on the first miss and `?` on a hash failure. -/
def Index.allMatch (filter : BloomFilter) : List String → Except RError Bool
  | [] => .ok true
  | t :: ts =>
    match filter.contains t with
    | .error e => .error e
    | .ok b => if b then Index.allMatch filter ts else .ok false

/-- The entry loop of `search`: collect the names whose filter matched every
token of a non-empty token stream (`in_loop` is the non-emptiness flag of
the source). -/
def Index.searchGo (keywords : String) :
    List (String × BloomFilter) → Except RError (List String)
  | [] => .ok []
  | (name, filter) :: rest =>
    let tokens := tokensList keywords
    let in_loop := !tokens.isEmpty
    match Index.allMatch filter tokens with
    | .error e => .error e
    | .ok all_tokens_match =>
      match Index.searchGo keywords rest with
      | .error e => .error e
      | .ok result => .ok (if in_loop && all_tokens_match then name :: result else result)

def sortStrings (l : List String) : List String :=
  l.mergeSort (fun a b => decide (a ≤ b))

/-- `Index::search`: sort the matches, `Some` when at least one matched,
`None` otherwise. -/
def Index.search (idx : Index) (keywords : String) :
    Except RError (Option (List String)) :=
  match Index.searchGo keywords idx.bloom_filters with
  | .error e => .error e
  | .ok result => .ok (if result.length > 0 then some (sortStrings result) else none)

/-- Every filter stored in the index is well-formed. -/
def Index.wf (idx : Index) : Prop :=
  ∀ e ∈ idx.bloom_filters, e.2.wf

instance (idx : Index) : Decidable idx.wf := by
  unfold Index.wf; infer_instance

/-- The identifiers whose stored filter contains every token of the query:
the matching set the spec describes for a non-empty token stream. -/
def Index.matchIds (idx : Index) (q : String) : List String :=
  (idx.bloom_filters.filter
    (fun e => (tokensList q).all e.2.containsB)).map Prod.fst

/-- The filter `ingest(name, content)` stores on success: built afresh with
capacity the cardinality of the deduplicated token set and the given error
rate, with every token inserted. -/
noncomputable def builtFilter (rate : ℝ) (content : String) : Option BloomFilter :=
  match BloomFilter.new (Index.aggregate_tokens content).length rate with
  | none => none
  | some f0 =>
    match insertAllD (blake2b 4) f0 (Index.aggregate_tokens content) with
    | .error _ => none
    | .ok f => some f

def countName (idx : Index) (name : String) : Nat :=
  (idx.bloom_filters.map Prod.fst).count name

/-! ## Persistence (Index::restore and the dump of the persisted form) -/

/-- The serialized filter record: fields `key_size`, `bitfield`,
`bitfield_size` exactly as `#[derive(Serialize, Deserialize)]` writes them. -/
structure PersistedFilter where
  key_size : Nat
  bitfield : List Nat
  bitfield_size : Nat
deriving DecidableEq, Repr

/-- The serialized index document: fields `error_rate` and `bloom_filters`. -/
structure PersistedIndex where
  error_rate : ℝ
  bloom_filters : List (String × PersistedFilter)

/-- Modelled from the spec: `dump()` "produces the persisted form from
current state". The current library has no dump method (only the legacy
prototype under src/indexer writes one); the serde_json serialization of
`Index` is modelled at the level of the structured document, field for
field, leaving the JSON text rendering to the external serde collaborator. -/
def Index.dump (idx : Index) : PersistedIndex :=
  { error_rate := idx.error_rate
    bloom_filters := idx.bloom_filters.map
      (fun e => (e.1, ⟨e.2.key_size, e.2.bitfield, e.2.bitfield_size⟩)) }

/-- `Index::restore`: parse the persisted document back into an `Index`; the
derived serde Deserialize rebuilds the fields one for one (shape and type
mismatches abort the process and are outside the structured document). -/
def Index.restore (p : PersistedIndex) : Index :=
  { error_rate := p.error_rate
    bloom_filters := p.bloom_filters.map
      (fun e => (e.1, ⟨e.2.key_size, e.2.bitfield, e.2.bitfield_size⟩)) }

/-! ## Sizing lemmas -/

theorem log_factor_eq : Real.log (1 / (2 : ℝ) ^ Real.log 2) = -(Real.log 2 * Real.log 2) := by
  rw [one_div, Real.log_inv, Real.log_rpow two_pos]

theorem msizeInt_eq (capacity : Nat) (p : ℝ) :
    msizeInt capacity p = ⌈(-(capacity : ℝ) * Real.log p) / (Real.log 2) ^ 2⌉ := by
  unfold msizeInt
  rw [log_factor_eq, div_neg, pow_two, neg_mul, neg_div]

theorem log_two_pos : (0 : ℝ) < Real.log 2 := Real.log_pos one_lt_two

theorem msizeInt_pos (capacity : Nat) (p : ℝ) (hc : 1 ≤ capacity) (hp0 : 0 < p)
    (hp1 : p < 1) : 0 < msizeInt capacity p := by
  rw [msizeInt_eq]
  apply Int.ceil_pos.mpr
  apply div_pos
  · have hlog : Real.log p < 0 := Real.log_neg hp0 hp1
    have hcast : (1 : ℝ) ≤ (capacity : ℝ) := by exact_mod_cast hc
    nlinarith
  · positivity

theorem msize_pos (capacity : Nat) (p : ℝ) (hc : 1 ≤ capacity) (hp0 : 0 < p)
    (hp1 : p < 1) : 0 < msize capacity p := by
  unfold msize
  have := msizeInt_pos capacity p hc hp0 hp1
  omega

theorem ksize_pos (capacity : Nat) (p : ℝ) (hc : 1 ≤ capacity) (hp0 : 0 < p)
    (hp1 : p < 1) : 0 < ksize capacity p := by
  unfold ksize
  have hm := msizeInt_pos capacity p hc hp0 hp1
  have h1 : (0 : ℝ) < (msizeInt capacity p : ℝ) / (capacity : ℝ) := by
    apply div_pos
    · exact_mod_cast hm
    · have : (1 : ℝ) ≤ (capacity : ℝ) := by exact_mod_cast hc
      linarith
  have : 0 < ⌈((msizeInt capacity p : ℝ) / (capacity : ℝ)) * Real.log 2⌉ :=
    Int.ceil_pos.mpr (mul_pos h1 log_two_pos)
  omega

theorem msizeInt_one_half : msizeInt 1 ((1 : ℝ) / 2) = 2 := by
  rw [msizeInt_eq]
  have h1 := Real.log_two_gt_d9
  have h2 := Real.log_two_lt_d9
  have hL := log_two_pos
  have hnum : -((1 : Nat) : ℝ) * Real.log ((1 : ℝ) / 2) = Real.log 2 := by
    rw [one_div, Real.log_inv]
    push_cast
    ring
  rw [hnum, pow_two]
  have hx : Real.log 2 / (Real.log 2 * Real.log 2) = 1 / Real.log 2 := by
    field_simp
  rw [hx, Int.ceil_eq_iff]
  constructor
  · push_cast
    rw [show ((2 : ℝ) - 1) = 1 by norm_num, lt_div_iff hL]
    linarith
  · push_cast
    rw [div_le_iff hL]
    linarith

theorem msize_one_half : msize 1 ((1 : ℝ) / 2) = 2 := by
  unfold msize
  rw [msizeInt_one_half]
  rfl

theorem ksize_one_half : ksize 1 ((1 : ℝ) / 2) = 2 := by
  unfold ksize
  rw [msizeInt_one_half]
  have h1 := Real.log_two_gt_d9
  have h2 := Real.log_two_lt_d9
  have hc : ⌈((2 : ℤ) : ℝ) / ((1 : Nat) : ℝ) * Real.log 2⌉ = 2 := by
    rw [Int.ceil_eq_iff]
    constructor
    · push_cast
      linarith
    · push_cast
      linarith
  rw [hc]
  rfl

theorem new_one_half :
    BloomFilter.new 1 ((1 : ℝ) / 2) = some ⟨2, [0], 2⟩ := by
  unfold BloomFilter.new
  rw [if_neg (by norm_num), msize_one_half, ksize_one_half]
  rfl

/-! ## Digest and hex-parse lemmas -/

theorem blakeGo_length (fuel : Nat) :
    ∀ (h : List Nat) (consumed : Nat) (rest : List Nat), h.length = 8 →
      (blakeGo fuel h consumed rest).length = 8 := by
  induction fuel with
  | zero =>
    intro h consumed rest hh
    unfold blakeGo
    split
    · simp [blakeCompress]
    · exact hh
  | succ fuel ih =>
    intro h consumed rest hh
    unfold blakeGo
    split
    · simp [blakeCompress]
    · exact ih _ _ _ (by simp [blakeCompress])

theorem blake2b_length (nn : Nat) (hnn : nn ≤ 64) (msg : List Nat) :
    (blake2b nn msg).length = nn := by
  unfold blake2b
  have h8 : (blakeGo msg.length (blakeIV.set 0 ((vget blakeIV 0) ^^^ (0x01010000 ^^^ nn)))
      0 msg).length = 8 := blakeGo_length _ _ _ _ (by simp [blakeIV])
  rw [List.length_take, List.length_flatten]
  have hmap : ∀ l : List Nat, (l.map wordLEBytes).map List.length =
      List.replicate l.length 8 := by
    intro l
    induction l with
    | nil => simp
    | cons a l ihl => simp [wordLEBytes, ihl, List.replicate]
  rw [hmap, h8, List.sum_replicate]
  simp only [smul_eq_mul]
  omega

theorem blake2b_bytes_lt (nn : Nat) (msg : List Nat) :
    ∀ b ∈ blake2b nn msg, b < 256 := by
  intro b hb
  unfold blake2b at hb
  have h1 := List.mem_of_mem_take hb
  obtain ⟨l, hl, hbl⟩ := List.mem_flatten.mp h1
  obtain ⟨w, _, hw⟩ := List.mem_map.mp hl
  subst hw
  obtain ⟨i, _, hi⟩ := List.mem_map.mp hbl
  subst hi
  exact Nat.mod_lt _ (by norm_num)

theorem hexVal_lt (c : Char) : hexVal c < 16 := by
  unfold hexVal
  split <;> try omega
  split <;> try omega
  split <;> omega

theorem hexFold_lt (l : List Char) : hexFold l < 16 ^ l.length := by
  suffices h : ∀ acc k, acc < 16 ^ k →
      l.foldl (fun acc c => 16 * acc + hexVal c) acc < 16 ^ (k + l.length) by
    have := h 0 0 (by norm_num)
    simpa [hexFold] using this
  induction l with
  | nil => intro acc k hacc; simpa using hacc
  | cons c cs ihc =>
    intro acc k hacc
    simp only [List.foldl_cons, List.length_cons]
    have hstep : 16 * acc + hexVal c < 16 ^ (k + 1) := by
      have := hexVal_lt c
      have : 16 * acc + hexVal c < 16 * acc + 16 := by omega
      calc 16 * acc + hexVal c < 16 * (acc + 1) := by omega
        _ ≤ 16 * 16 ^ k := by omega
        _ = 16 ^ (k + 1) := by ring
    have := ihc (16 * acc + hexVal c) (k + 1) hstep
    have harr : k + 1 + cs.length = k + (cs.length + 1) := by omega
    rw [harr] at this
    exact this

theorem hexDigitChar_isHex (n : Nat) : isHexDigit (hexDigitChar n) = true := by
  unfold hexDigitChar
  rcases Nat.lt_or_ge n 16 with h | h
  · interval_cases n <;> decide
  · rw [List.getD_eq_default]
    · decide
    · simpa using h

theorem byteHexChars_isHex (b : Nat) : ∀ c ∈ byteHexChars b, isHexDigit c = true := by
  intro c hc
  unfold byteHexChars at hc
  split at hc <;> simp at hc <;>
    first
      | (rw [hc]; exact hexDigitChar_isHex _)
      | (rcases hc with hc | hc <;> rw [hc] <;> exact hexDigitChar_isHex _)

theorem byteHexChars_length (b : Nat) : (byteHexChars b).length ≤ 2 := by
  unfold byteHexChars
  split <;> simp

theorem byteHexChars_ne_nil (b : Nat) : byteHexChars b ≠ [] := by
  unfold byteHexChars
  split <;> simp

theorem hexChars_length (bytes : List Nat) : (hexChars bytes).length ≤ 2 * bytes.length := by
  unfold hexChars
  induction bytes with
  | nil => simp
  | cons b bs ihb =>
    simp only [List.map_cons, List.flatten_cons, List.length_append, List.length_cons]
    have := byteHexChars_length b
    unfold hexChars at ihb
    omega

theorem hexChars_ne_nil (bytes : List Nat) (h : bytes ≠ []) : hexChars bytes ≠ [] := by
  unfold hexChars
  cases bytes with
  | nil => exact absurd rfl h
  | cons b bs =>
    simp only [List.map_cons, List.flatten_cons]
    intro hcon
    have := byteHexChars_ne_nil b
    rcases List.append_eq_nil.mp hcon with ⟨h1, _⟩
    exact this h1

theorem hexChars_all_hex (bytes : List Nat) : (hexChars bytes).all isHexDigit = true := by
  rw [List.all_eq_true]
  intro c hc
  obtain ⟨l, hl, hcl⟩ := List.mem_flatten.mp hc
  obtain ⟨b, _, hb⟩ := List.mem_map.mp hl
  subst hb
  exact byteHexChars_isHex b c hcl

/-- Parsing the hex rendering of a 4-byte digest always succeeds: the string
is nonempty, entirely hex digits, and at most 8 digits long so its value
fits usize. -/
theorem parse_digest (msg : List Nat) :
    parseHexCore (hexChars (blake2b 4 msg)) = .ok (digestVal msg) := by
  have hlen : (blake2b 4 msg).length = 4 := blake2b_length 4 (by norm_num) msg
  have hne : hexChars (blake2b 4 msg) ≠ [] := by
    apply hexChars_ne_nil
    intro hcon
    rw [hcon] at hlen
    simp at hlen
  have hhex := hexChars_all_hex (blake2b 4 msg)
  have hsmall : hexFold (hexChars (blake2b 4 msg)) < 2 ^ 64 := by
    have h1 := hexFold_lt (hexChars (blake2b 4 msg))
    have h2 := hexChars_length (blake2b 4 msg)
    rw [hlen] at h2
    calc hexFold (hexChars (blake2b 4 msg)) < 16 ^ (hexChars (blake2b 4 msg)).length := h1
      _ ≤ 16 ^ 8 := Nat.pow_le_pow_right (by norm_num) (by omega)
      _ < 2 ^ 64 := by norm_num
  unfold parseHexCore
  rw [if_neg hne, if_pos hhex, if_pos hsmall]
  rfl

/-! ## hash_word closed form -/

theorem hashWordGo_blake (key : String) (m : Nat) :
    ∀ (cnt : Nat) (buf : List String),
      hashWordGo (blake2b 4) key m cnt buf =
        .ok ((List.range cnt).map
          (fun i => digestVal (strBytes (String.join (buf ++ List.replicate (i + 1) key))) % m)) := by
  intro cnt
  induction cnt with
  | zero => intro buf; simp [hashWordGo]
  | succ cnt ih =>
    intro buf
    simp only [hashWordGo, parse_digest, ih (buf ++ [key])]
    simp only [List.range_succ_eq_map, List.map_cons, List.map_map]
    congr 1
    simp [List.replicate_succ]

theorem hash_word_eq (f : BloomFilter) (key : String) :
    f.hash_word key = .ok (hashPositions f key) := by
  unfold BloomFilter.hash_word BloomFilter.hashWordD hashPositions posOf
  rw [hashWordGo_blake]
  simp

theorem hashPositions_length (f : BloomFilter) (key : String) :
    (hashPositions f key).length = f.key_size := by
  simp [hashPositions]

theorem hashPositions_lt (f : BloomFilter) (key : String) (hm : 0 < f.bitfield_size) :
    ∀ p ∈ hashPositions f key, p < f.bitfield_size := by
  intro p hp
  unfold hashPositions posOf at hp
  obtain ⟨i, _, hi⟩ := List.mem_map.mp hp
  rw [← hi]
  exact Nat.mod_lt _ hm

/-- `hash_word` reads only the probe count and the bit-field length: filters
agreeing on those agree on every position list. -/
theorem hash_word_congr (f g : BloomFilter) (key : String)
    (hk : f.key_size = g.key_size) (hm : f.bitfield_size = g.bitfield_size) :
    f.hash_word key = g.hash_word key := by
  unfold BloomFilter.hash_word BloomFilter.hashWordD
  rw [hk, hm]

/-! ## Bit-level lemmas -/

theorem and_two_pow_beq (b j : Nat) : (b &&& 2 ^ j == 2 ^ j) = b.testBit j := by
  rw [Nat.and_two_pow]
  cases h : b.testBit j
  · have h2 : (0 : Nat) ≠ 2 ^ j := (Nat.pow_pos (by norm_num : (0 : Nat) < 2)).ne
    simp [h2]
  · simp

theorem testBitfield_eq_testBit (bf : List Nat) (p : Nat) :
    testBitfield bf p = (bf.getD (p / 8) 0).testBit (p % 8) := by
  unfold testBitfield
  exact and_two_pow_beq _ _

theorem setBit_length (bf : List Nat) (q : Nat) : (setBit bf q).length = bf.length := by
  simp [setBit]

theorem getD_set_ne (bf : List Nat) (i j : Nat) (v : Nat) (h : i ≠ j) :
    (bf.set i v).getD j 0 = bf.getD j 0 := by
  rw [List.getD_eq_getElem?_getD, List.getD_eq_getElem?_getD, List.getElem?_set_ne h]

theorem getD_set_self (bf : List Nat) (i : Nat) (v : Nat) (h : i < bf.length) :
    (bf.set i v).getD i 0 = v := by
  rw [List.getD_eq_getElem?_getD, List.getElem?_set_self h]
  rfl

/-- Setting one bit never clears another. -/
theorem testBitfield_setBit_mono (bf : List Nat) (q p : Nat)
    (h : testBitfield bf p = true) : testBitfield (setBit bf q) p = true := by
  rw [testBitfield_eq_testBit] at h ⊢
  unfold setBit
  rcases eq_or_ne (q / 8) (p / 8) with heq | hne
  · rcases Nat.lt_or_ge (q / 8) bf.length with hlt | hge
    · rw [heq] at hlt ⊢
      rw [getD_set_self _ _ _ hlt, ← heq, heq, Nat.testBit_lor, h]
      simp
    · rw [List.set_eq_of_length_le (by omega)]
      exact h
  · rw [getD_set_ne _ _ _ _ hne]
    exact h

theorem testBitfield_foldl_mono (qs : List Nat) (bf : List Nat) (p : Nat)
    (h : testBitfield bf p = true) : testBitfield (qs.foldl setBit bf) p = true := by
  induction qs generalizing bf with
  | nil => exact h
  | cons q qs ih => exact ih _ (testBitfield_setBit_mono bf q p h)

theorem testBitfield_setBit_self (bf : List Nat) (p : Nat) (hin : p / 8 < bf.length) :
    testBitfield (setBit bf p) p = true := by
  rw [testBitfield_eq_testBit]
  unfold setBit
  rw [getD_set_self _ _ _ hin, Nat.testBit_lor, Nat.testBit_two_pow]
  simp

theorem foldl_setBit_length (qs : List Nat) (bf : List Nat) :
    (qs.foldl setBit bf).length = bf.length := by
  induction qs generalizing bf with
  | nil => rfl
  | cons q qs ih => rw [List.foldl_cons, ih, setBit_length]

theorem testBitfield_foldl_of_mem (qs : List Nat) (bf : List Nat) (p : Nat)
    (hp : p ∈ qs) (hin : p / 8 < bf.length) :
    testBitfield (qs.foldl setBit bf) p = true := by
  induction qs generalizing bf with
  | nil => cases hp
  | cons q qs ih =>
    rw [List.foldl_cons]
    rcases List.mem_cons.mp hp with heq | hmem
    · subst heq
      exact testBitfield_foldl_mono qs _ p (testBitfield_setBit_self bf p hin)
    · exact ih _ hmem (by rw [setBit_length]; exact hin)

/-! ## insert and contains with the crate's digest -/

theorem insert_eq (f : BloomFilter) (key : String) :
    f.insert key = .ok { f with bitfield := (hashPositions f key).foldl setBit f.bitfield } := by
  unfold BloomFilter.insert BloomFilter.insertD
  rw [show f.hashWordD (blake2b 4) key = f.hash_word key from rfl, hash_word_eq]

theorem contains_eq (f : BloomFilter) (key : String) :
    f.contains key = .ok ((hashPositions f key).all (testBitfield f.bitfield)) := by
  unfold BloomFilter.contains BloomFilter.containsD
  rw [show f.hashWordD (blake2b 4) key = f.hash_word key from rfl, hash_word_eq]

theorem contains_containsB (f : BloomFilter) (key : String) :
    f.contains key = .ok (f.containsB key) := by
  unfold BloomFilter.containsB
  rw [contains_eq]

theorem containsB_eq (f : BloomFilter) (key : String) :
    f.containsB key = (hashPositions f key).all (testBitfield f.bitfield) := by
  unfold BloomFilter.containsB
  rw [contains_eq]

theorem insert_fields (f f2 : BloomFilter) (key : String)
    (h : f.insert key = .ok f2) :
    f2.key_size = f.key_size ∧ f2.bitfield_size = f.bitfield_size ∧
      f2.bitfield = (hashPositions f key).foldl setBit f.bitfield := by
  rw [insert_eq] at h
  cases h
  exact ⟨rfl, rfl, rfl⟩

theorem insert_wf (f f2 : BloomFilter) (key : String) (hwf : f.wf)
    (h : f.insert key = .ok f2) : f2.wf := by
  obtain ⟨hk, hm, hb⟩ := insert_fields f f2 key h
  exact ⟨hm ▸ hwf.1, by rw [hb, foldl_setBit_length, hm]; exact hwf.2⟩

theorem insertAll_sizes :
    ∀ (l : List String) (f f2 : BloomFilter),
      insertAllD (blake2b 4) f l = .ok f2 →
      f2.key_size = f.key_size ∧ f2.bitfield_size = f.bitfield_size := by
  intro l
  induction l with
  | nil =>
    intro f f2 h
    cases h
    exact ⟨rfl, rfl⟩
  | cons t ts ih =>
    intro f f2 h
    unfold insertAllD at h
    rw [show f.insertD (blake2b 4) t = f.insert t from rfl, insert_eq] at h
    obtain ⟨hk, hm⟩ := ih _ _ h
    exact ⟨hk, hm⟩

theorem insertAll_wf :
    ∀ (l : List String) (f f2 : BloomFilter), f.wf →
      insertAllD (blake2b 4) f l = .ok f2 → f2.wf := by
  intro l
  induction l with
  | nil =>
    intro f f2 hwf h
    cases h
    exact hwf
  | cons t ts ih =>
    intro f f2 hwf h
    unfold insertAllD at h
    cases hins : f.insertD (blake2b 4) t with
    | error e => rw [hins] at h; cases h
    | ok g =>
      rw [hins] at h
      exact ih g f2 (insert_wf f g t hwf hins) h

theorem insertAll_mono :
    ∀ (l : List String) (f f2 : BloomFilter) (p : Nat),
      insertAllD (blake2b 4) f l = .ok f2 →
      testBitfield f.bitfield p = true → testBitfield f2.bitfield p = true := by
  intro l
  induction l with
  | nil =>
    intro f f2 p h hp
    cases h
    exact hp
  | cons t ts ih =>
    intro f f2 p h hp
    unfold insertAllD at h
    rw [show f.insertD (blake2b 4) t = f.insert t from rfl, insert_eq] at h
    exact ih _ _ _ h (testBitfield_foldl_mono _ _ _ hp)

theorem insertAll_append (l1 l2 : List String) (f : BloomFilter) :
    insertAllD (blake2b 4) f (l1 ++ l2) =
      match insertAllD (blake2b 4) f l1 with
      | .error e => .error e
      | .ok g => insertAllD (blake2b 4) g l2 := by
  induction l1 generalizing f with
  | nil => simp [insertAllD]
  | cons t ts ih =>
    have hL : insertAllD (blake2b 4) f (t :: (ts ++ l2)) =
        match f.insertD (blake2b 4) t with
        | .error e => .error e
        | .ok g => insertAllD (blake2b 4) g (ts ++ l2) := rfl
    have hR : insertAllD (blake2b 4) f (t :: ts) =
        match f.insertD (blake2b 4) t with
        | .error e => .error e
        | .ok g => insertAllD (blake2b 4) g ts := rfl
    rw [List.cons_append, hL, hR]
    cases f.insertD (blake2b 4) t with
    | error e => rfl
    | ok g => exact ih g

/-- Every filter produced by `BloomFilter::new` on a valid configuration is
well-formed. -/
theorem new_wf (capacity : Nat) (p : ℝ) (f : BloomFilter) (hc : 1 ≤ capacity)
    (hp0 : 0 < p) (hp1 : p < 1) (h : BloomFilter.new capacity p = some f) : f.wf := by
  unfold BloomFilter.new at h
  rw [if_neg (by omega)] at h
  cases h
  exact ⟨msize_pos capacity p hc hp0 hp1, by simp⟩

theorem new_sizes (capacity : Nat) (p : ℝ) (f : BloomFilter)
    (h : BloomFilter.new capacity p = some f) :
    f.key_size = ksize capacity p ∧ f.bitfield_size = msize capacity p ∧
      f.bitfield = List.replicate ((msize capacity p + 7) / 8) 0 ∧ capacity ≠ 0 := by
  unfold BloomFilter.new at h
  by_cases hc : capacity = 0
  · rw [if_pos hc] at h; cases h
  · rw [if_neg hc] at h
    cases h
    exact ⟨rfl, rfl, rfl, hc⟩

/-! ## search characterization -/

theorem allMatch_eq (f : BloomFilter) :
    ∀ ts : List String, Index.allMatch f ts = .ok (ts.all f.containsB) := by
  intro ts
  induction ts with
  | nil => rfl
  | cons t ts ih =>
    unfold Index.allMatch
    rw [contains_containsB]
    cases hb : f.containsB t with
    | true => simp [ih, hb]
    | false => simp [hb]

theorem searchGo_eq (q : String) :
    ∀ entries : List (String × BloomFilter),
      Index.searchGo q entries =
        .ok ((entries.filter
          (fun e => !(tokensList q).isEmpty && (tokensList q).all e.2.containsB)).map
            Prod.fst) := by
  intro entries
  induction entries with
  | nil => rfl
  | cons e rest ih =>
    obtain ⟨name, filter⟩ := e
    simp only [Index.searchGo, allMatch_eq, ih, List.filter_cons]
    cases hc : !(tokensList q).isEmpty && (tokensList q).all filter.containsB with
    | true => simp [hc]
    | false => simp [hc]

theorem search_eq (idx : Index) (q : String) :
    idx.search q =
      .ok (if ((idx.bloom_filters.filter
          (fun e => !(tokensList q).isEmpty && (tokensList q).all e.2.containsB)).map
            Prod.fst).length > 0
        then some (sortStrings ((idx.bloom_filters.filter
          (fun e => !(tokensList q).isEmpty && (tokensList q).all e.2.containsB)).map
            Prod.fst))
        else none) := by
  unfold Index.search
  rw [searchGo_eq]

/-! ## Association-list (HashMap) lemmas -/

theorem lookup_insertAList_self (l : List (String × BloomFilter)) (name : String)
    (f : BloomFilter) : (insertAList l name f).lookup name = some f := by
  induction l with
  | nil => simp [insertAList, List.lookup]
  | cons e es ih =>
    unfold insertAList
    by_cases he : e.1 = name
    · simp [he, List.lookup]
    · obtain ⟨k, v⟩ := e
      simp only at he
      have hbeq : (name == k) = false := beq_eq_false_iff_ne.mpr (fun h => he h.symm)
      simp [he, List.lookup, hbeq, ih]

theorem insertAList_keys_nodup (l : List (String × BloomFilter)) (name : String)
    (f : BloomFilter) (h : (l.map Prod.fst).Nodup) :
    ((insertAList l name f).map Prod.fst).Nodup := by
  induction l with
  | nil => simp [insertAList]
  | cons e es ih =>
    unfold insertAList
    by_cases he : e.1 = name
    · simpa [he] using h
    · simp only [he, if_false, List.map_cons, List.nodup_cons]
      simp only [List.map_cons, List.nodup_cons] at h
      constructor
      · intro hcon
        have hmem : ∀ k, k ∈ (insertAList es name f).map Prod.fst →
            k ∈ es.map Prod.fst ∨ k = name := by
          intro k hk
          clear hcon ih h
          induction es with
          | nil => simpa [insertAList] using hk
          | cons a as iha =>
            unfold insertAList at hk
            by_cases ha : a.1 = name
            · simp only [ha, if_true, List.map_cons] at hk
              rcases List.mem_cons.mp hk with h1 | h1
              · right; exact h1
              · left; simp [h1]
            · simp only [ha, if_false, List.map_cons] at hk
              rcases List.mem_cons.mp hk with h1 | h1
              · left; simp [h1]
              · rcases iha h1 with h2 | h2
                · left; simp [h2]
                · right; exact h2
        rcases hmem e.1 hcon with h1 | h1
        · exact h.1 h1
        · exact he h1
      · exact ih h.2

theorem count_insertAList (l : List (String × BloomFilter)) (name : String)
    (f : BloomFilter) (h : (l.map Prod.fst).Nodup) :
    ((insertAList l name f).map Prod.fst).count name = 1 := by
  induction l with
  | nil => simp [insertAList]
  | cons e es ih =>
    unfold insertAList
    by_cases he : e.1 = name
    · simp only [he, if_true, List.map_cons, List.count_cons]
      simp only [List.map_cons, List.nodup_cons, he] at h
      rw [List.count_eq_zero_of_not_mem h.1]
      simp
    · simp only [he, if_false, List.map_cons, List.count_cons]
      simp only [List.map_cons, List.nodup_cons] at h
      rw [ih h.2]
      have hbeq : (e.1 == name) = false := beq_eq_false_iff_ne.mpr he
      simp [hbeq]

theorem insertAList_twice (l : List (String × BloomFilter)) (name : String)
    (a b : BloomFilter) :
    insertAList (insertAList l name a) name b = insertAList l name b := by
  induction l with
  | nil => simp [insertAList]
  | cons e es ih =>
    have hstep : ∀ (g : BloomFilter) (X : List (String × BloomFilter)),
        insertAList (e :: X) name g =
          if e.1 = name then (name, g) :: X else e :: insertAList X name g :=
      fun g X => rfl
    by_cases he : e.1 = name
    · rw [hstep a es, if_pos he, hstep b es, if_pos he,
        show insertAList ((name, a) :: es) name b =
          if (name, a).1 = name then (name, b) :: es
          else (name, a) :: insertAList es name b from rfl]
      simp
    · rw [hstep a es, if_neg he, hstep b es, if_neg he,
        hstep b (insertAList es name a), if_neg he, ih]

/-! ## Persistence round trip -/

theorem restore_dump (idx : Index) : Index.restore (Index.dump idx) = idx := by
  obtain ⟨rate, filters⟩ := idx
  unfold Index.dump Index.restore
  simp only [List.map_map]
  congr 1
  induction filters with
  | nil => rfl
  | cons e es ih =>
    simp only [List.map_cons, ih]
    rfl

/-! ## Tokenizer lemmas -/

theorem nextAll_eq : ∀ ws : List String,
    Tokens.nextAll ws = (ws.map Tokens.normalize).filter (fun t => t ≠ "") := by
  intro ws
  induction ws with
  | nil => rfl
  | cons w rest ih =>
    simp only [Tokens.nextAll, Tokens.normalize, List.map_cons, List.filter_cons]
    by_cases ht : (Tokens.clean_word (unidecodeStr w)).toLower = ""
    · simp [ht, ih]
    · simp [ht, ih]

theorem tokensList_eq (s : String) :
    tokensList s = ((rustSplitWhitespace s).map Tokens.normalize).filter (fun t => t ≠ "") :=
  nextAll_eq _

theorem splitWSChars_all_ws :
    ∀ l : List Char, (∀ c ∈ l, rustWhitespace c = true) → splitWSChars l [] = [] := by
  intro l
  induction l with
  | nil => intro _; rfl
  | cons c cs ih =>
    intro h
    unfold splitWSChars
    rw [if_pos (h c (List.mem_cons_self c cs))]
    simp only [if_pos rfl]
    exact ih (fun x hx => h x (List.mem_cons_of_mem c hx))

theorem tokensList_of_whitespace (s : String) (h : s.data.all rustWhitespace = true) :
    tokensList s = [] := by
  unfold tokensList rustSplitWhitespace
  rw [splitWSChars_all_ws s.data (fun c hc => List.all_eq_true.mp h c hc)]
  rfl

/-! ## ingest equations -/

theorem ingestD_match (d : List Nat → List Nat) (idx : Index) (name content : String) :
    Index.ingestD d idx name content =
      match BloomFilter.new (Index.aggregate_tokens content).length idx.error_rate with
      | none => (.panicked, idx)
      | some filter =>
        match insertAllD d filter (Index.aggregate_tokens content) with
        | .error e => (.errored e, idx)
        | .ok filter =>
          (.ok, { error_rate := idx.error_rate
                  bloom_filters := insertAList idx.bloom_filters name filter }) := rfl

theorem ingestD_panic (d : List Nat → List Nat) (idx : Index) (name content : String)
    (h : Index.aggregate_tokens content = []) :
    Index.ingestD d idx name content = (.panicked, idx) := by
  rw [ingestD_match, h]
  simp only [List.length_nil]
  rw [show BloomFilter.new 0 idx.error_rate = none from by unfold BloomFilter.new; simp]

theorem ingestD_error (d : List Nat → List Nat) (idx : Index) (name content : String)
    (f0 : BloomFilter) (e : RError)
    (hnew : BloomFilter.new (Index.aggregate_tokens content).length idx.error_rate = some f0)
    (hins : insertAllD d f0 (Index.aggregate_tokens content) = .error e) :
    Index.ingestD d idx name content = (.errored e, idx) := by
  rw [ingestD_match, hnew]
  simp [hins]

theorem ingestD_ok (d : List Nat → List Nat) (idx : Index) (name content : String)
    (f0 f : BloomFilter)
    (hnew : BloomFilter.new (Index.aggregate_tokens content).length idx.error_rate = some f0)
    (hins : insertAllD d f0 (Index.aggregate_tokens content) = .ok f) :
    Index.ingestD d idx name content =
      (.ok, { error_rate := idx.error_rate
              bloom_filters := insertAList idx.bloom_filters name f }) := by
  rw [ingestD_match, hnew]
  simp [hins]

theorem ingestD_ok_inv (d : List Nat → List Nat) (idx : Index) (name content : String)
    (idx1 : Index) (h : Index.ingestD d idx name content = (.ok, idx1)) :
    ∃ f0 f, BloomFilter.new (Index.aggregate_tokens content).length idx.error_rate = some f0 ∧
      insertAllD d f0 (Index.aggregate_tokens content) = .ok f ∧
      idx1 = { error_rate := idx.error_rate
               bloom_filters := insertAList idx.bloom_filters name f } := by
  rw [ingestD_match] at h
  cases hnew : BloomFilter.new (Index.aggregate_tokens content).length idx.error_rate with
  | none =>
    rw [hnew] at h
    simp at h
  | some f0 =>
    rw [hnew] at h
    simp only at h
    cases hins : insertAllD d f0 (Index.aggregate_tokens content) with
    | error e =>
      rw [hins] at h
      simp at h
    | ok f =>
      rw [hins] at h
      simp only [Prod.mk.injEq] at h
      exact ⟨f0, f, rfl, hins, h.2.symm⟩

theorem getD_replicate_zero (n i : Nat) : (List.replicate n (0 : Nat)).getD i 0 = 0 := by
  rw [List.getD_eq_getElem?_getD, List.getElem?_replicate]
  split <;> rfl

/-! ## Claims -/

/-- C5: a dump → restore → dump cycle is stable and the restored index
reproduces identical query behavior: `search` on the restored index returns
the same result as on the original for every query. The persisted form is
modelled as the structured serde document (see `Index.dump`); within it the
cycle is an exact fixed point, so both parts follow from
`restore (dump idx) = idx`. -/
theorem claim_C5_round_trip (idx : Index) :
    Index.dump (Index.restore (Index.dump idx)) = Index.dump idx ∧
    ∀ q, (Index.restore (Index.dump idx)).search q = idx.search q := by
  rw [restore_dump]
  exact ⟨rfl, fun q => rfl⟩

/-- C6: `BloomFilter::new` with capacity n ≥ 1 and error rate p ∈ (0,1)
computes the bit-field length m = ceil(-n·ln p / (ln 2)²) and the probe
count k = max(1, ceil((m/n)·ln 2)) — the `max` is redundant on the code
side because the ceiling of the positive quantity is already ≥ 1 — with
m > 0 and k ≥ 1. Determinism is definitional: the sizes are a pure
function of (n, p); the last conjunct states the uniqueness of the
constructed filter. The f32 arithmetic of the source is modelled over ℝ. -/
theorem claim_C6_sizing (n : Nat) (p : ℝ) (f : BloomFilter)
    (hn : 1 ≤ n) (hp0 : 0 < p) (hp1 : p < 1)
    (hnew : BloomFilter.new n p = some f) :
    f.bitfield_size = (⌈(-(n : ℝ) * Real.log p) / (Real.log 2) ^ 2⌉).toNat ∧
    f.key_size = max 1 (⌈((f.bitfield_size : ℝ) / (n : ℝ)) * Real.log 2⌉).toNat ∧
    0 < f.bitfield_size ∧ 1 ≤ f.key_size ∧
    (∀ g, BloomFilter.new n p = some g → g = f) := by
  obtain ⟨hk, hm, hb, hc⟩ := new_sizes n p f hnew
  have hmpos := msizeInt_pos n p hn hp0 hp1
  have hkpos := ksize_pos n p hn hp0 hp1
  have hm_for : f.bitfield_size = (⌈(-(n : ℝ) * Real.log p) / (Real.log 2) ^ 2⌉).toNat := by
    rw [hm]
    unfold msize
    rw [msizeInt_eq]
  refine ⟨hm_for, ?_, ?_, ?_, ?_⟩
  · rw [hk, hm]
    unfold ksize msize
    have hcast : (((msizeInt n p).toNat : Nat) : ℝ) = ((msizeInt n p : ℤ) : ℝ) := by
      rw [← Int.cast_natCast]
      congr 1
      exact Int.toNat_of_nonneg (le_of_lt hmpos)
    rw [hcast]
    rw [max_eq_right]
    have h1 : (0 : ℝ) < (msizeInt n p : ℝ) / (n : ℝ) := by
      apply div_pos
      · exact_mod_cast hmpos
      · have : (1 : ℝ) ≤ (n : ℝ) := by exact_mod_cast hn
        linarith
    have : 0 < ⌈((msizeInt n p : ℝ) / (n : ℝ)) * Real.log 2⌉ :=
      Int.ceil_pos.mpr (mul_pos h1 log_two_pos)
    omega
  · rw [hm]
    exact msize_pos n p hn hp0 hp1
  · rw [hk]
    exact hkpos
  · intro g hg
    rw [hnew] at hg
    exact (Option.some_inj.mp hg).symm

/-- C7: `hash_word` on a filter with probe count k and bit-field length
m > 0 yields exactly k positions, position i being the value of the
hex-rendered 4-byte Blake2b digest of the key concatenated with itself
i+1 times, reduced modulo m; and the positions depend only on
(key, k, m), so identical inputs yield the identical list. -/
theorem claim_C7_hash_positions (f : BloomFilter) (key : String)
    (hm : 0 < f.bitfield_size) :
    f.hash_word key =
      .ok ((List.range f.key_size).map (fun i =>
        digestVal (strBytes (String.join (List.replicate (i + 1) key))) % f.bitfield_size)) ∧
    (∀ l, f.hash_word key = .ok l → l.length = f.key_size) ∧
    (∀ g : BloomFilter, f.key_size = g.key_size → f.bitfield_size = g.bitfield_size →
      f.hash_word key = g.hash_word key) := by
  refine ⟨hash_word_eq f key, ?_, ?_⟩
  · intro l hl
    rw [hash_word_eq] at hl
    cases hl
    exact hashPositions_length f key
  · intro g hk hm2
    exact hash_word_congr f g key hk hm2

/-- C8: a freshly constructed filter (capacity n ≥ 1, error rate p ∈ (0,1),
all bits zero) reports `contains(x) == Ok(false)` for every key x: the
probe count is at least 1 and every probed bit of the all-zero field is
clear. -/
theorem claim_C8_fresh_filter (n : Nat) (p : ℝ) (f : BloomFilter)
    (hn : 1 ≤ n) (hp0 : 0 < p) (hp1 : p < 1)
    (hnew : BloomFilter.new n p = some f) :
    ∀ x : String, f.contains x = .ok false := by
  intro x
  obtain ⟨hk, hm, hb, -⟩ := new_sizes n p f hnew
  rw [contains_eq]
  have hall : (hashPositions f x).all (testBitfield f.bitfield) = false := by
    apply List.all_eq_false.mpr
    have hlen : (hashPositions f x).length = f.key_size := hashPositions_length f x
    have hkpos : 0 < f.key_size := by
      rw [hk]
      exact ksize_pos n p hn hp0 hp1
    obtain ⟨q, hq⟩ := List.exists_mem_of_length_pos
      (show 0 < (hashPositions f x).length by omega)
    refine ⟨q, hq, ?_⟩
    rw [testBitfield_eq_testBit, hb, getD_replicate_zero, Nat.zero_testBit]
    simp
  rw [hall]

/-- C9: the tokenizer is a pure function of its input (determinism is
definitional), and per whitespace-delimited word it transliterates to
ASCII, strips the punctuation set, lowercases, and drops empty results —
stated as the map/filter characterization of the word loop — with the
four concrete behaviors the spec lists. -/
theorem claim_C9_tokenizer :
    (∀ s, tokensList s =
      ((rustSplitWhitespace s).map Tokens.normalize).filter (fun t => t ≠ "")) ∧
    tokensList "word1 word2  word3" = ["word1", "word2", "word3"] ∧
    tokensList "Word1, word2!" = ["word1", "word2"] ∧
    tokensList "café" = ["cafe"] ∧
    (∀ s, s.data.all rustWhitespace = true → tokensList s = []) := by
  refine ⟨tokensList_eq, by decide, by decide, by decide, tokensList_of_whitespace⟩

theorem claim_C9_witness :
    ("  \t ".data.all rustWhitespace = true) ∧ tokensList "  \t " = [] :=
  ⟨by decide, claim_C9_tokenizer.2.2.2.2 "  \t " (by decide)⟩

/-- C10: content whose tokenization yields no tokens makes `ingest` hit the
zero-capacity `panic!` of `BloomFilter::new`: the outcome is neither `Ok`
nor an `Err` value, and the identifier-to-filter mapping at the moment of
the abort is the unchanged prior mapping. -/
theorem claim_C10_empty_tokens (idx : Index) (name content : String)
    (h : Index.aggregate_tokens content = []) :
    Index.ingest idx name content = (.panicked, idx) ∧
    (Index.ingest idx name content).1 ≠ .ok ∧
    (∀ e, (Index.ingest idx name content).1 ≠ .errored e) ∧
    (Index.ingest idx name content).2.bloom_filters = idx.bloom_filters := by
  have hp : Index.ingest idx name content = (.panicked, idx) :=
    ingestD_panic (blake2b 4) idx name content h
  refine ⟨hp, ?_, ?_, ?_⟩
  · rw [hp]
    simp
  · intro e
    rw [hp]
    simp
  · rw [hp]

theorem claim_C10_witness :
    Index.aggregate_tokens "?!" = [] ∧
    Index.ingest ⟨(1 : ℝ)/2, [("a", ⟨2, [3], 2⟩)]⟩ "b" "?!" =
      (.panicked, ⟨(1 : ℝ)/2, [("a", ⟨2, [3], 2⟩)]⟩) :=
  ⟨by decide, (claim_C10_empty_tokens ⟨(1 : ℝ)/2, [("a", ⟨2, [3], 2⟩)]⟩ "b" "?!" (by decide)).1⟩

theorem claim_C6_sizing_witness :
    (⟨2, [0], 2⟩ : BloomFilter).bitfield_size =
      (⌈(-((1 : Nat) : ℝ) * Real.log ((1 : ℝ)/2)) / (Real.log 2) ^ 2⌉).toNat ∧
    (⟨2, [0], 2⟩ : BloomFilter).key_size =
      max 1 (⌈(((⟨2, [0], 2⟩ : BloomFilter).bitfield_size : ℝ) / ((1 : Nat) : ℝ)) *
        Real.log 2⌉).toNat ∧
    0 < (⟨2, [0], 2⟩ : BloomFilter).bitfield_size ∧
    1 ≤ (⟨2, [0], 2⟩ : BloomFilter).key_size ∧
    (∀ g, BloomFilter.new 1 ((1 : ℝ)/2) = some g → g = ⟨2, [0], 2⟩) :=
  claim_C6_sizing 1 ((1 : ℝ)/2) ⟨2, [0], 2⟩ (by norm_num) (by norm_num) (by norm_num)
    new_one_half

theorem claim_C7_hash_positions_witness :
    (⟨2, [3], 2⟩ : BloomFilter).hash_word "hello" =
      .ok ((List.range 2).map (fun i =>
        digestVal (strBytes (String.join (List.replicate (i + 1) "hello"))) % 2)) ∧
    (∀ l, (⟨2, [3], 2⟩ : BloomFilter).hash_word "hello" = .ok l → l.length = 2) ∧
    (∀ g : BloomFilter, 2 = g.key_size → 2 = g.bitfield_size →
      (⟨2, [3], 2⟩ : BloomFilter).hash_word "hello" = g.hash_word "hello") :=
  claim_C7_hash_positions ⟨2, [3], 2⟩ "hello" (by norm_num)

theorem claim_C8_fresh_filter_witness :
    (⟨2, [0], 2⟩ : BloomFilter).contains "hello" = .ok false :=
  claim_C8_fresh_filter 1 ((1 : ℝ)/2) ⟨2, [0], 2⟩ (by norm_num) (by norm_num) (by norm_num)
    new_one_half "hello"

/-- C1: no false negatives. Starting from a filter constructed with
capacity n ≥ 1 and error rate p ∈ (0,1), run any succeeding sequence of
inserts in which `insert x` occurs somewhere (any other inserts before and
after it); the resulting filter answers `contains x` with `Ok(true)`:
the bits `insert x` set are in range, are really set, and are never
cleared again, and `hash_word` re-derives the same positions because the
probe count and bit-field length never change. -/
theorem claim_C1_no_false_negatives (n : Nat) (p : ℝ) (f0 f : BloomFilter)
    (x : String) (pre post : List String)
    (hn : 1 ≤ n) (hp0 : 0 < p) (hp1 : p < 1)
    (hnew : BloomFilter.new n p = some f0)
    (hins : insertAllD (blake2b 4) f0 (pre ++ x :: post) = .ok f) :
    f.contains x = .ok true := by
  have hwf0 : f0.wf := new_wf n p f0 hn hp0 hp1 hnew
  rw [insertAll_append pre (x :: post) f0] at hins
  cases hpre : insertAllD (blake2b 4) f0 pre with
  | error e =>
    rw [hpre] at hins
    simp at hins
  | ok f1 =>
    rw [hpre] at hins
    simp only at hins
    have hwf1 : f1.wf := insertAll_wf pre f0 f1 hwf0 hpre
    have hstep : insertAllD (blake2b 4) f1 (x :: post) =
        match f1.insertD (blake2b 4) x with
        | .error e => .error e
        | .ok g => insertAllD (blake2b 4) g post := rfl
    rw [hstep, show f1.insertD (blake2b 4) x = f1.insert x from rfl, insert_eq f1 x] at hins
    simp only at hins
    have hset : ∀ q ∈ hashPositions f1 x,
        testBitfield ((hashPositions f1 x).foldl setBit f1.bitfield) q = true := by
      intro q hq
      apply testBitfield_foldl_of_mem _ _ _ hq
      have hqlt := hashPositions_lt f1 x hwf1.1 q hq
      have hlen := hwf1.2
      omega
    have hfin : ∀ q ∈ hashPositions f1 x, testBitfield f.bitfield q = true :=
      fun q hq => insertAll_mono post _ f q hins (hset q hq)
    obtain ⟨hfk, hfm⟩ := insertAll_sizes post _ f hins
    have hpos_eq : hashPositions f x = hashPositions f1 x := by
      unfold hashPositions
      rw [hfk, hfm]
    rw [contains_eq, hpos_eq]
    rw [List.all_eq_true.mpr (fun q hq => hfin q hq)]

theorem claim_C1_no_false_negatives_witness :
    BloomFilter.new 1 ((1 : ℝ)/2) = some ⟨2, [0], 2⟩ ∧
    insertAllD (blake2b 4) ⟨2, [0], 2⟩ ([] ++ "hello" :: ["world"]) = .ok ⟨2, [3], 2⟩ ∧
    (⟨2, [3], 2⟩ : BloomFilter).contains "hello" = .ok true :=
  ⟨new_one_half, by decide,
    claim_C1_no_false_negatives 1 ((1 : ℝ)/2) ⟨2, [0], 2⟩ ⟨2, [3], 2⟩ "hello" [] ["world"]
      (by norm_num) (by norm_num) (by norm_num) new_one_half (by decide)⟩

/-- C2: `search` on a well-formed index. A query whose tokenization is
empty reports absence (`Ok(None)`) and matches no document; a query with
at least one token returns `Ok(Some(L))` where L is the lexicographically
sorted list of exactly the stored identifiers whose filter contains every
query token, and `Ok(None)` when no identifier qualifies. The sortedness
and exact-membership conjuncts spell out what the sorted list contains. -/
theorem claim_C2_search (idx : Index) (q : String) (hwf : idx.wf) :
    (tokensList q = [] → idx.search q = .ok none) ∧
    (tokensList q ≠ [] →
      idx.search q =
        .ok (if idx.matchIds q = [] then none else some (sortStrings (idx.matchIds q))) ∧
      List.Pairwise (fun a b : String => a ≤ b) (sortStrings (idx.matchIds q)) ∧
      (∀ s, s ∈ sortStrings (idx.matchIds q) ↔ s ∈ idx.matchIds q)) := by
  constructor
  · intro hq
    rw [search_eq]
    simp [hq]
  · intro hq
    have hne : (tokensList q).isEmpty = false := by
      cases htl : tokensList q with
      | nil => exact absurd htl hq
      | cons a l => rfl
    have hfeq : idx.bloom_filters.filter
        (fun e => !(tokensList q).isEmpty && (tokensList q).all e.2.containsB) =
        idx.bloom_filters.filter (fun e => (tokensList q).all e.2.containsB) := by
      apply List.filter_congr
      intro e _
      rw [hne]
      rfl
    refine ⟨?_, ?_, ?_⟩
    · rw [search_eq, hfeq]
      unfold Index.matchIds
      by_cases hempty :
          (idx.bloom_filters.filter (fun e => (tokensList q).all e.2.containsB)).map
            Prod.fst = []
      · simp [hempty]
      · have hlen : ((idx.bloom_filters.filter
            (fun e => (tokensList q).all e.2.containsB)).map Prod.fst).length > 0 :=
          List.length_pos.mpr hempty
        rw [if_pos hlen, if_neg hempty]
    · have hs := @List.sorted_mergeSort String (fun a b : String => decide (a ≤ b))
        (fun a b c hab hbc =>
          decide_eq_true (le_trans (of_decide_eq_true hab) (of_decide_eq_true hbc)))
        (fun a b => by rcases le_total a b with h | h <;> simp [h])
        (idx.matchIds q)
      exact hs.imp (fun h => of_decide_eq_true h)
    · intro s
      exact (List.mergeSort_perm (idx.matchIds q) _).mem_iff

theorem claim_C2_search_witness :
    (tokensList "hello" = [] →
      Index.search ⟨(1 : ℝ)/2, [("b", ⟨2, [3], 2⟩), ("a", ⟨2, [3], 2⟩)]⟩ "hello" = .ok none) ∧
    (tokensList "hello" ≠ [] →
      Index.search ⟨(1 : ℝ)/2, [("b", ⟨2, [3], 2⟩), ("a", ⟨2, [3], 2⟩)]⟩ "hello" =
        .ok (if Index.matchIds ⟨(1 : ℝ)/2, [("b", ⟨2, [3], 2⟩), ("a", ⟨2, [3], 2⟩)]⟩ "hello" = []
          then none
          else some (sortStrings
            (Index.matchIds ⟨(1 : ℝ)/2, [("b", ⟨2, [3], 2⟩), ("a", ⟨2, [3], 2⟩)]⟩ "hello"))) ∧
      List.Pairwise (fun a b : String => a ≤ b) (sortStrings
        (Index.matchIds ⟨(1 : ℝ)/2, [("b", ⟨2, [3], 2⟩), ("a", ⟨2, [3], 2⟩)]⟩ "hello")) ∧
      (∀ s, s ∈ sortStrings
          (Index.matchIds ⟨(1 : ℝ)/2, [("b", ⟨2, [3], 2⟩), ("a", ⟨2, [3], 2⟩)]⟩ "hello") ↔
        s ∈ Index.matchIds ⟨(1 : ℝ)/2, [("b", ⟨2, [3], 2⟩), ("a", ⟨2, [3], 2⟩)]⟩ "hello")) :=
  claim_C2_search ⟨(1 : ℝ)/2, [("b", ⟨2, [3], 2⟩), ("a", ⟨2, [3], 2⟩)]⟩ "hello" (by decide)

/-- C3: re-ingesting an identifier fully replaces its filter. If
`ingest(name, c1)` succeeded and then `ingest(name, c2)` succeeded, the
second call produces exactly the index a direct `ingest(name, c2)` on the
original index would have produced (so every query behaves as if only c2
had ever been ingested under `name`, the c1 filter being fully discarded);
the mapping holds the filter built from c2's deduplicated token set with
capacity its cardinality and the stored error rate, and holds it exactly
once under `name`. -/
theorem claim_C3_replacement (idx idx1 idx2 : Index) (name c1 c2 : String)
    (hnd : (idx.bloom_filters.map Prod.fst).Nodup)
    (h1 : idx.ingest name c1 = (.ok, idx1))
    (h2 : idx1.ingest name c2 = (.ok, idx2)) :
    idx.ingest name c2 = (.ok, idx2) ∧
    idx2.bloom_filters.lookup name = builtFilter idx.error_rate c2 ∧
    countName idx2 name = 1 := by
  obtain ⟨f0a, fa, hnew1, hins1, hidx1⟩ := ingestD_ok_inv _ idx name c1 idx1 h1
  obtain ⟨f0b, fb, hnew2, hins2, hidx2⟩ := ingestD_ok_inv _ idx1 name c2 idx2 h2
  have hrate : idx1.error_rate = idx.error_rate := by rw [hidx1]
  rw [hrate] at hnew2
  have hdirect : idx.ingest name c2 =
      (.ok, { error_rate := idx.error_rate
              bloom_filters := insertAList idx.bloom_filters name fb }) :=
    ingestD_ok (blake2b 4) idx name c2 f0b fb hnew2 hins2
  have hsame : idx2 = { error_rate := idx.error_rate
                        bloom_filters := insertAList idx.bloom_filters name fb } := by
    rw [hidx2, hidx1]
    show Index.mk idx.error_rate
      (insertAList (insertAList idx.bloom_filters name fa) name fb) = _
    rw [insertAList_twice]
  refine ⟨?_, ?_, ?_⟩
  · rw [hdirect, hsame]
  · rw [hsame]
    show (insertAList idx.bloom_filters name fb).lookup name = _
    rw [lookup_insertAList_self]
    simp [builtFilter, hnew2, hins2]
  · unfold countName
    rw [hsame]
    exact count_insertAList idx.bloom_filters name fb hnd

theorem claim_C3_replacement_witness :
    Index.ingest ⟨(1 : ℝ)/2, []⟩ "a" "word1" = (.ok, ⟨(1 : ℝ)/2, [("a", ⟨2, [3], 2⟩)]⟩) ∧
    Index.ingest ⟨(1 : ℝ)/2, [("a", ⟨2, [3], 2⟩)]⟩ "a" "word2" =
      (.ok, ⟨(1 : ℝ)/2, [("a", ⟨2, [3], 2⟩)]⟩) ∧
    Index.ingest ⟨(1 : ℝ)/2, []⟩ "a" "word2" = (.ok, ⟨(1 : ℝ)/2, [("a", ⟨2, [3], 2⟩)]⟩) ∧
    List.lookup "a" [("a", (⟨2, [3], 2⟩ : BloomFilter))] = builtFilter ((1 : ℝ)/2) "word2" ∧
    countName ⟨(1 : ℝ)/2, [("a", ⟨2, [3], 2⟩)]⟩ "a" = 1 := by
  have hlen1 : (Index.aggregate_tokens "word1").length = 1 := by decide
  have hlen2 : (Index.aggregate_tokens "word2").length = 1 := by decide
  have hnew1 : BloomFilter.new (Index.aggregate_tokens "word1").length ((1 : ℝ)/2) =
      some ⟨2, [0], 2⟩ := by rw [hlen1]; exact new_one_half
  have hnew2 : BloomFilter.new (Index.aggregate_tokens "word2").length ((1 : ℝ)/2) =
      some ⟨2, [0], 2⟩ := by rw [hlen2]; exact new_one_half
  have hins1 : insertAllD (blake2b 4) ⟨2, [0], 2⟩ (Index.aggregate_tokens "word1") =
      .ok ⟨2, [3], 2⟩ := by decide
  have hins2 : insertAllD (blake2b 4) ⟨2, [0], 2⟩ (Index.aggregate_tokens "word2") =
      .ok ⟨2, [3], 2⟩ := by decide
  have hw1 : Index.ingest ⟨(1 : ℝ)/2, []⟩ "a" "word1" =
      (.ok, ⟨(1 : ℝ)/2, [("a", ⟨2, [3], 2⟩)]⟩) :=
    ingestD_ok (blake2b 4) ⟨(1 : ℝ)/2, []⟩ "a" "word1" ⟨2, [0], 2⟩ ⟨2, [3], 2⟩ hnew1 hins1
  have hw2 : Index.ingest ⟨(1 : ℝ)/2, [("a", ⟨2, [3], 2⟩)]⟩ "a" "word2" =
      (.ok, ⟨(1 : ℝ)/2, [("a", ⟨2, [3], 2⟩)]⟩) :=
    ingestD_ok (blake2b 4) ⟨(1 : ℝ)/2, [("a", ⟨2, [3], 2⟩)]⟩ "a" "word2" ⟨2, [0], 2⟩
      ⟨2, [3], 2⟩ hnew2 hins2
  have hmain := claim_C3_replacement ⟨(1 : ℝ)/2, []⟩ ⟨(1 : ℝ)/2, [("a", ⟨2, [3], 2⟩)]⟩
    ⟨(1 : ℝ)/2, [("a", ⟨2, [3], 2⟩)]⟩ "a" "word1" "word2" (by decide) hw1 hw2
  exact ⟨hw1, hw2, hmain.1, hmain.2.1, hmain.2.2⟩

/-- C4: if an insert performed while building the replacement filter during
`ingest` fails with a HashDerivationFailure, `ingest` returns that same
error as a result value and the identifier-to-filter mapping is unchanged:
the partially filled filter is never stored and whatever was previously
stored under the identifier is still there. Stated for an arbitrary digest
primitive `d`, of which the crate's Blake2b is one instance; a digest of
the wrong shape is what makes the hypothesis satisfiable. -/
theorem claim_C4_error_propagation (d : List Nat → List Nat) (idx : Index)
    (name content : String) (f0 : BloomFilter) (e : RError)
    (hnew : BloomFilter.new (Index.aggregate_tokens content).length idx.error_rate = some f0)
    (hins : insertAllD d f0 (Index.aggregate_tokens content) = .error e) :
    Index.ingestD d idx name content = (.errored e, idx) ∧
    (Index.ingestD d idx name content).2.bloom_filters = idx.bloom_filters ∧
    (∀ g, idx.bloom_filters.lookup name = some g →
      (Index.ingestD d idx name content).2.bloom_filters.lookup name = some g) := by
  have herr := ingestD_error d idx name content f0 e hnew hins
  refine ⟨herr, ?_, ?_⟩
  · rw [herr]
  · intro g hg
    rw [herr]
    exact hg

theorem claim_C4_error_propagation_witness :
    BloomFilter.new (Index.aggregate_tokens "word1").length
      ((⟨(1 : ℝ)/2, [("a", ⟨2, [3], 2⟩)]⟩ : Index).error_rate) = some ⟨2, [0], 2⟩ ∧
    insertAllD (fun _ => []) ⟨2, [0], 2⟩ (Index.aggregate_tokens "word1") =
      .error (.hashWord .empty) ∧
    Index.ingestD (fun _ => []) ⟨(1 : ℝ)/2, [("a", ⟨2, [3], 2⟩)]⟩ "b" "word1" =
      (.errored (.hashWord .empty), ⟨(1 : ℝ)/2, [("a", ⟨2, [3], 2⟩)]⟩) := by
  have hnew : BloomFilter.new (Index.aggregate_tokens "word1").length ((1 : ℝ)/2) =
      some ⟨2, [0], 2⟩ := by
    rw [show (Index.aggregate_tokens "word1").length = 1 from by decide]
    exact new_one_half
  have hins : insertAllD (fun _ => []) ⟨2, [0], 2⟩ (Index.aggregate_tokens "word1") =
      .error (.hashWord .empty) := by decide
  exact ⟨hnew, hins,
    (claim_C4_error_propagation (fun _ => []) ⟨(1 : ℝ)/2, [("a", ⟨2, [3], 2⟩)]⟩ "b" "word1"
      ⟨2, [0], 2⟩ (.hashWord .empty) hnew hins).1⟩
